import Mathlib

/-!
Shallow embedding of `src/torch_glow/src/ShapeInferenceEngine.cpp`.

Shapes are `List Int` (the C++ code uses `std::vector<int64_t>`); the
value-metadata store maps value identities (modelled as `Nat`) to
`VariableMeta`.  Fallible C++ code (`Error` / `Expected<T>`) is modelled with
`Except ShapeError`.  The C++ error strings are mapped to the tagged error
kinds named by the specification; two extra constructors model aborts that are
not ordinary `Error` returns: `outOfBounds` models an out-of-bounds
`std::vector::operator[]` access (undefined behavior in C++), and
`internalFatal` models a failed `CHECK` (fatal abort).
-/

namespace Glow

/-- Error kinds of the engine, as the specification names them.  Each
constructor corresponds to one family of `MAKE_ERR` / `RETURN_ERR_IF_NOT`
messages in the source; `shapeMismatch a b` carries the two conflicting sizes
that the C++ message interpolates (or compares, where the message carries
none). -/
inductive ShapeError where
  | arityMismatch
  | unsupportedOperator
  | unsupportedInputKind
  | rankMismatch
  | shapeMismatch (a b : Int)
  | dimOutOfRange
  | outOfBounds
  | internalFatal
deriving DecidableEq

/-- Mirror of `struct VariableMeta`: a shape and the optional scalar/list
payload (`intValue` in the source; empty list when absent). -/
structure VariableMeta where
  shape : List Int
  intValue : List Int
deriving DecidableEq

/-- Monadic map specialised to `Except ShapeError`, aborting at the first
error, in left-to-right order; it models C++ loops that `RETURN_ERR` from
inside the loop body. -/
def mapME {α β : Type} (f : α → Except ShapeError β) : List α → Except ShapeError (List β)
  | [] => .ok []
  | a :: l =>
    match f a with
    | .error e => .error e
    | .ok b =>
      match mapME f l with
      | .error e => .error e
      | .ok bs => .ok (b :: bs)

/-- Element of `l` at position `i` counted from the right: `revGet l i`
models the C++ access `l[l.size() - 1 - i]`, returning `none` when the C++
index would be out of bounds (`i >= l.size()`). -/
def revGet (l : List Int) (i : Nat) : Option Int := l.reverse[i]?

/-- Body of the broadcasting loop of `ShapeInferenceEngine::binaryOp` for
loop index `i` (the C++ code writes `j = -1 - i` and accesses `t0[d0 + j]`,
`t1[d1 + j]`, i.e. position `i` from the right).  The branch structure and
the short-circuit order of `i >= d0 || t0[d0 + j] == 1` are kept exactly; a
read past the front of a vector (possible in the first two branches when the
other operand is shorter) is the C++ out-of-bounds access, modelled as
`outOfBounds`. -/
def broadcastEntry (t0 t1 : List Int) (i : Nat) : Except ShapeError Int :=
  if t0.length ≤ i ∨ revGet t0 i = some 1 then
    match revGet t1 i with
    | some v => .ok v
    | none => .error .outOfBounds
  else if t1.length ≤ i ∨ revGet t1 i = some 1 then
    match revGet t0 i with
    | some v => .ok v
    | none => .error .outOfBounds
  else
    match revGet t0 i, revGet t1 i with
    | some a, some b => if b ≠ a then .error (.shapeMismatch a b) else .ok b
    | _, _ => .error .outOfBounds

/-- Core of `ShapeInferenceEngine::binaryOp` on the two input shapes: if
`t1` has rank 1 the result is `t0` verbatim; otherwise the loop fills the
result of rank `max d0 d1` from the rightmost dimension outward (loop index
`i` increasing, result position `dim - 1 - i`), aborting at the first
error. -/
def binaryOpShapes (t0 t1 : List Int) : Except ShapeError (List Int) :=
  if t1.length = 1 then .ok t0
  else
    (mapME (broadcastEntry t0 t1) (List.range (max t0.length t1.length))).map List.reverse

/-- `ShapeInferenceEngine::binaryOp`: accepts two or three input metas (the
optional third is a scalar coefficient, ignored for shapes) and broadcasts
the first two shapes. -/
def binaryOp (varibableMetas : List VariableMeta) : Except ShapeError (List Int) :=
  match varibableMetas with
  | [m0, m1] => binaryOpShapes m0.shape m1.shape
  | [m0, m1, _] => binaryOpShapes m0.shape m1.shape
  | _ => .error .arityMismatch

/-- `ShapeInferenceEngine::mm`: exactly two inputs, both rank 2, inner
dimensions must agree; result `[t0[0], t1[1]]`. -/
def mm (varibableMetas : List VariableMeta) : Except ShapeError (List Int) :=
  match varibableMetas with
  | [m0, m1] =>
    let t0 := m0.shape
    let t1 := m1.shape
    if ¬(t1.length = 2 ∧ t0.length = 2) then .error .rankMismatch
    else if t0.getD 1 0 ≠ t1.getD 0 0 then .error (.shapeMismatch (t0.getD 1 0) (t1.getD 0 0))
    else .ok [t0.getD 0 0, t1.getD 1 0]
  | _ => .error .arityMismatch

/-- `ShapeInferenceEngine::bmm`: exactly two inputs, both rank 3, batch
dimension and inner dimension must agree; result `[t0[0], t0[1], t1[2]]`. -/
def bmm (varibableMetas : List VariableMeta) : Except ShapeError (List Int) :=
  match varibableMetas with
  | [m0, m1] =>
    let t0 := m0.shape
    let t1 := m1.shape
    if ¬(t0.length = 3 ∧ t1.length = 3) then .error .rankMismatch
    else if t0.getD 0 0 ≠ t1.getD 0 0 then .error (.shapeMismatch (t0.getD 0 0) (t1.getD 0 0))
    else if t0.getD 2 0 ≠ t1.getD 1 0 then .error (.shapeMismatch (t0.getD 2 0) (t1.getD 1 0))
    else .ok [t0.getD 0 0, t0.getD 1 0, t1.getD 2 0]
  | _ => .error .arityMismatch

/-- `ShapeInferenceEngine::addmm`: at least three inputs; when the third
input's shape has rank 1 the effective matrix-product operand is the second
input's meta itself, otherwise it is a fresh meta (empty `intValue`) holding
`mm` of the second and third shapes; the result broadcasts the bias (first
input) against that operand via `binaryOp`. -/
def addmm (varibableMetas : List VariableMeta) : Except ShapeError (List Int) :=
  match varibableMetas with
  | m0 :: m1 :: m2 :: _ =>
    if m2.shape.length = 1 then binaryOp [m0, m1]
    else
      match mm [m1, m2] with
      | .error e => .error e
      | .ok s => binaryOp [m0, ⟨s, []⟩]
  | _ => .error .arityMismatch

/-- `ShapeInferenceEngine::constantChunk`: exactly one input; a negative
`dim` is normalised by adding the rank once, then range-checked; the chunk
size is the C++ truncating division `(size + chunks - 1) / chunks`
(`Int.tdiv`), all chunks except the last take it, the last takes
`size - c * (chunks - 1)`; the loop emits `chunks` copies of the input shape
with the split dimension replaced (`chunks <= 0` would divide by zero /
run an empty loop in C++; the Lean model then yields an empty list). -/
def constantChunk (varibableMetas : List VariableMeta) (chunks dim : Int) :
    Except ShapeError (List (List Int)) :=
  match varibableMetas with
  | [m] =>
    let rank : Int := m.shape.length
    let nd := if dim < 0 then dim + rank else dim
    if nd < rank ∧ 0 ≤ nd then
      let sizeAt := m.shape.getD nd.toNat 0
      let c := Int.tdiv (sizeAt + chunks - 1) chunks
      let r := sizeAt - c * (chunks - 1)
      .ok ((List.range chunks.toNat).map (fun (i : Nat) =>
        m.shape.set nd.toNat (if (i : Int) = chunks - 1 then r else c)))
    else .error .dimOutOfRange
  | _ => .error .arityMismatch

/-- Tail of the inner dimension loop of `fusedConcat` for positions after the
concat dimension: every remaining pair must be equal. -/
def concatZipTail : List Int → List Int → Except ShapeError (List Int)
  | [], [] => .ok []
  | a :: as, b :: bs =>
    if a ≠ b then .error (.shapeMismatch a b)
    else (concatZipTail as bs).map (fun rest => a :: rest)
  | _, _ => .error .rankMismatch

/-- Inner dimension loop of `fusedConcat` over one later input: positions
before the concat dimension (first argument counts down to it) must be equal,
the concat dimension accumulates the sum, positions after it must be equal;
the first mismatch in increasing position order is the error, exactly as the
C++ `for (j …)` loop reports it. -/
def concatZip : Nat → List Int → List Int → Except ShapeError (List Int)
  | _, [], [] => .ok []
  | 0, a :: as, b :: bs => (concatZipTail as bs).map (fun rest => (a + b) :: rest)
  | d + 1, a :: as, b :: bs =>
    if a ≠ b then .error (.shapeMismatch a b)
    else (concatZip d as bs).map (fun rest => a :: rest)
  | _, _, _ => .error .rankMismatch

/-- Outer loop of `fusedConcat` over the later inputs: each later input must
have rank `inDims`, then its dimensions are folded into the accumulated
shape by `concatZip`. -/
def fusedConcatLoop (nd inDims : Nat) : List Int → List VariableMeta → Except ShapeError (List Int)
  | shape, [] => .ok shape
  | shape, m :: ms =>
    if inDims ≠ m.shape.length then .error .rankMismatch
    else
      match concatZip nd shape m.shape with
      | .error e => .error e
      | .ok shape2 => fusedConcatLoop nd inDims shape2 ms

/-- `ShapeInferenceEngine::fusedConcat`: at least one input; with exactly one
input the result is that input's shape (returned before any dimension
check); otherwise a negative `dim` is normalised by the first input's rank,
range-checked, and the later inputs are folded in. -/
def fusedConcat (varibableMetas : List VariableMeta) (dim : Int) : Except ShapeError (List Int) :=
  match varibableMetas with
  | [] => .error .arityMismatch
  | [m] => .ok m.shape
  | m0 :: rest =>
    let inDims : Int := m0.shape.length
    let nd := if dim < 0 then dim + inDims else dim
    if nd < inDims ∧ 0 ≤ nd then
      fusedConcatLoop nd.toNat m0.shape.length m0.shape rest
    else .error .dimOutOfRange

/-- Declared output type (with embedded `value` attribute payload) of a
`prim::Constant` node, mirroring the type categories that
`ShapeInferenceEngine::primConstant` distinguishes; `unhandled` stands for
any type category matched by none of the `isSubtypeOf` tests. -/
inductive ConstType where
  | float
  | int (v : Int)
  | bool (b : Bool)
  | none
  | tensor (dims : List Int)
  | unhandled
deriving DecidableEq

/-- Whether the declared output type is tensor-like
(`isSubtypeOf(at::TensorType::get())`). -/
def isTensorType (ct : ConstType) : Bool :=
  match ct with
  | .tensor _ => true
  | _ => false

/-- `ShapeInferenceEngine::primConstant`: the shape-or-value vector for a
`prim::Constant` node by declared output type.  The unhandled category sets
no branch in the source and therefore returns the still-empty vector. -/
def primConstant (ct : ConstType) : List Int :=
  match ct with
  | .float => [1]
  | .int v => [v]
  | .bool b => [if b then 1 else 0]
  | .none => []
  | .tensor dims => dims
  | .unhandled => []

/-- Operator kinds dispatched by `ShapeInferenceEngine::shapeOnNode`;
`unsupported` stands for every other node kind (the `default` arm). -/
inductive OpKind where
  | constant
  | tanh
  | relu
  | sigmoid
  | sub
  | pow
  | mul
  | add
  | mm
  | addmm
  | bmm
  | fusedConcat
  | constantChunk
  | unsupported
deriving DecidableEq

/-- Graph node: operator kind, input and output value identities, the
integer attributes `dim` and `chunks` (read only by the concat and chunk
kinds), and the declared constant type (read only by `prim::Constant`). -/
structure Node where
  kind : OpKind
  inputs : List Nat
  outputs : List Nat
  dimAttr : Int
  chunksAttr : Int
  ctype : ConstType
deriving DecidableEq

/-- Graph: ordered input identities, ordered node list (assumed
topologically ordered), ordered output identities. -/
structure Graph where
  inputs : List Nat
  nodes : List Node
  outputs : List Nat
deriving DecidableEq

/-- Value-metadata store (`shapeMap_`), modelled as an association list in
which the most recent insertion for an identity shadows older ones. -/
abbrev Store := List (Nat × VariableMeta)

/-- Lookup in the store (`shapeMap_.find`). -/
def storeFind (st : Store) (id : Nat) : Option VariableMeta :=
  match st with
  | [] => Option.none
  | (k, m) :: rest => if k = id then some m else storeFind rest id

/-- Insertion into the store (`shapeMap_[id] = …` assigning both fields). -/
def storeInsert (st : Store) (id : Nat) (m : VariableMeta) : Store :=
  (id, m) :: st

/-- Assignment `shapeMap_[id].shape = s`: `operator[]` default-constructs a
fresh entry when the identity is absent, and an existing entry keeps its
`intValue`. -/
def storeShape (st : Store) (id : Nat) (s : List Int) : Store :=
  match storeFind st id with
  | some m => storeInsert st id ⟨s, m.intValue⟩
  | Option.none => storeInsert st id ⟨s, []⟩

/-- Output write-back loop of `shapeOnNode` for non-constant kinds: output
identity `i` receives result shape `i`.  (The C++ loop indexes the result
vector by output position; an output arity exceeding the result arity would
be an out-of-bounds read, so the model writes the common prefix.) -/
def storeOutputs (st : Store) : List Nat → List (List Int) → Store
  | id :: ids, s :: ss => storeOutputs (storeShape st id s) ids ss
  | _, _ => st

/-- Concrete runtime input instance (`at::IValue`) in the categories the
engine distinguishes: tensor (with its dimension sizes), boolean, integer,
integer list, or anything else. -/
inductive IValue where
  | tensor (dims : List Int)
  | bool (b : Bool)
  | int (v : Int)
  | intList (l : List Int)
  | other
deriving DecidableEq

/-- Per-instance body of `ShapeInferenceEngine::getGraphIntputShape`: a
tensor stores its sizes with no scalar payload; a bool or int stores shape
`[1]` and the value; an int list of length `N` stores shape `[N, 1]` and
the elements; anything else is the unsupported-input error. -/
def materializeInput (v : IValue) : Except ShapeError VariableMeta :=
  match v with
  | .tensor dims => .ok ⟨dims, []⟩
  | .bool b => .ok ⟨[1], [if b then 1 else 0]⟩
  | .int v => .ok ⟨[1], [v]⟩
  | .intList l => .ok ⟨[(l.length : Int), 1], l⟩
  | .other => .error .unsupportedInputKind

/-- `ShapeInferenceEngine::getGraphIntputShape` (source spelling kept): walks
the paired graph-input identities and concrete instances in order, first
default-initialising the entry (`shapeMap_[gInName].shape = {}` …) and then
storing the materialised meta; the first unsupported instance aborts, leaving
its default entry in the store. -/
def getGraphIntputShape (st : Store) : List (Nat × IValue) → Store × Option ShapeError
  | [] => (st, Option.none)
  | (id, v) :: rest =>
    let st0 := storeInsert st id ⟨[], []⟩
    match materializeInput v with
    | .ok m => getGraphIntputShape (storeInsert st0 id m) rest
    | .error e => (st0, some e)

/-- `ShapeInferenceEngine::getNodeInputShape`: collect the metas of a node's
inputs in order; a missing identity fails the `CHECK` (fatal abort). -/
def getNodeInputShape (st : Store) : List Nat → Except ShapeError (List VariableMeta)
  | [] => .ok []
  | id :: ids =>
    match storeFind st id with
    | some m => (getNodeInputShape st ids).map (fun l => m :: l)
    | Option.none => .error .internalFatal

/-- `ShapeInferenceEngine::shapeOnNode`: fetch the input metas, dispatch on
the operator kind, and write the result(s) back into the store.  For
`prim::Constant` a tensor-typed output stores the result as its shape and
any other type stores shape `[1]` with the result as `intValue`; all other
kinds store one result shape per output. -/
def shapeOnNode (st : Store) (n : Node) : Except ShapeError Store :=
  match getNodeInputShape st n.inputs with
  | .error e => .error e
  | .ok inputMetas =>
    match n.kind with
    | .constant =>
      let res := primConstant n.ctype
      match n.outputs with
      | o :: _ =>
        if isTensorType n.ctype then .ok (storeShape st o res)
        else .ok (storeInsert st o ⟨[1], res⟩)
      | [] => .error .internalFatal
    | .tanh | .relu | .sigmoid =>
      match inputMetas with
      | [m] => .ok (storeOutputs st n.outputs [m.shape])
      | _ => .error .arityMismatch
    | .sub | .pow | .mul | .add =>
      (binaryOp inputMetas).map (fun s => storeOutputs st n.outputs [s])
    | .mm =>
      (mm inputMetas).map (fun s => storeOutputs st n.outputs [s])
    | .addmm =>
      (addmm inputMetas).map (fun s => storeOutputs st n.outputs [s])
    | .bmm =>
      (bmm inputMetas).map (fun s => storeOutputs st n.outputs [s])
    | .fusedConcat =>
      (fusedConcat inputMetas n.dimAttr).map (fun s => storeOutputs st n.outputs [s])
    | .constantChunk =>
      (constantChunk inputMetas n.chunksAttr n.dimAttr).map (fun ss => storeOutputs st n.outputs ss)
    | .unsupported => .error .unsupportedOperator

/-- Node loop of `ShapeInferenceEngine::run`: process nodes in order,
stopping at the first error and returning the store as it was before the
failing node wrote anything. -/
def runNodes (st : Store) : List Node → Store × Option ShapeError
  | [] => (st, Option.none)
  | n :: ns =>
    match shapeOnNode st n with
    | .ok st2 => runNodes st2 ns
    | .error e => (st, some e)

/-- `ShapeInferenceEngine::generateGraphOutputShape`: read the shape of each
declared graph output from the store; a missing identity fails the `CHECK`
(fatal abort). -/
def generateGraphOutputShape (st : Store) : List Nat → Except ShapeError (List (List Int))
  | [] => .ok []
  | id :: ids =>
    match storeFind st id with
    | some m => (generateGraphOutputShape st ids).map (fun l => m.shape :: l)
    | Option.none => .error .internalFatal

/-- Observable outcome of one inference pass: the store as left behind, the
first error if any, and the collected output shapes (empty unless the pass
succeeded). -/
structure RunResult where
  store : Store
  err : Option ShapeError
  outputShape : List (List Int)
deriving DecidableEq

/-- `ShapeInferenceEngine::run`: arity check between the caller-supplied
inputs and the graph's declared inputs, then the input materialiser, then
the node loop, then output collection; the first error anywhere aborts the
remainder of the pass. -/
def run (g : Graph) (inputs : List IValue) : RunResult :=
  if inputs.length ≠ g.inputs.length then ⟨[], some .arityMismatch, []⟩
  else
    match getGraphIntputShape [] (g.inputs.zip inputs) with
    | (st, some e) => ⟨st, some e, []⟩
    | (st, Option.none) =>
      match runNodes st g.nodes with
      | (st2, some e) => ⟨st2, some e, []⟩
      | (st2, Option.none) =>
        match generateGraphOutputShape st2 g.outputs with
        | .error e => ⟨st2, some e, []⟩
        | .ok outs => ⟨st2, Option.none, outs⟩

/-- Binary broadcasting rule as the specification states it (written from the
spec text, for comparison with the source-derived `binaryOpShapes`): for each
right-aligned pair, if one operand lacks the dimension or has size 1 there the
result takes the other operand's size, agreeing sizes are taken as-is, and
differing sizes (both present, neither 1) are a `shapeMismatch`. -/
def broadcastSpecEntry (t0 t1 : List Int) (i : Nat) : Except ShapeError Int :=
  match revGet t0 i, revGet t1 i with
  | some a, some b =>
    if a = 1 then .ok b
    else if b = 1 then .ok a
    else if a = b then .ok a
    else .error (.shapeMismatch a b)
  | some a, Option.none => .ok a
  | Option.none, some b => .ok b
  | Option.none, Option.none => .ok 0

/-- Whole-shape form of the specification's binary broadcasting rule: `t0`
verbatim when `t1` has rank 1, otherwise the right-aligned reconciliation of
`broadcastSpecEntry` at every position of the result rank `max d0 d1`. -/
def broadcastSpec (t0 t1 : List Int) : Except ShapeError (List Int) :=
  if t1.length = 1 then .ok t0
  else
    (mapME (broadcastSpecEntry t0 t1) (List.range (max t0.length t1.length))).map List.reverse

/-- Predicate for claim C3: all entries of a shape are non-negative. -/
def Nonneg (l : List Int) : Prop := ∀ x ∈ l, 0 ≤ x

/-- Reading a just-set position of a list yields the written value. -/
theorem getD_set_self : ∀ (l : List Int) (k : Nat) (x : Int), k < l.length →
    (l.set k x).getD k 0 = x
  | _ :: _, 0, _, _ => rfl
  | a :: l, k + 1, x, h => getD_set_self l k x (by simpa using h)
  | [], _, _, h => absurd h (by simp)

/-- Reading any other position of a list is unaffected by `set`. -/
theorem getD_set_ne : ∀ (l : List Int) (k j : Nat) (x : Int), j ≠ k →
    (l.set k x).getD j 0 = l.getD j 0
  | [], _, _, _, _ => by simp
  | _ :: _, 0, 0, _, h => absurd rfl h
  | a :: l, 0, j + 1, x, _ => rfl
  | a :: l, k + 1, 0, x, _ => rfl
  | a :: l, k + 1, j + 1, x, h => getD_set_ne l k j x (by omega)

/-- Setting a position of a list to its own value is the identity. -/
theorem set_getD_self : ∀ (l : List Int) (k : Nat), k < l.length →
    l.set k (l.getD k 0) = l
  | _ :: _, 0, _ => rfl
  | a :: l, k + 1, h => by
      simpa using set_getD_self l k (by simpa using h)
  | [], _, h => absurd h (by simp)

/-- Success form of `constantChunk` under an in-range normalised dimension:
the output list is the literal chunk construction of the source. -/
theorem constantChunk_ok (m : VariableMeta) (chunks dim nd : Int)
    (hnd : nd = if dim < 0 then dim + (m.shape.length : Int) else dim)
    (h1 : nd < (m.shape.length : Int)) (h2 : 0 ≤ nd) :
    constantChunk [m] chunks dim = .ok ((List.range chunks.toNat).map (fun (i : Nat) =>
      m.shape.set nd.toNat
        (if (i : Int) = chunks - 1
         then m.shape.getD nd.toNat 0 -
              Int.tdiv (m.shape.getD nd.toNat 0 + chunks - 1) chunks * (chunks - 1)
         else Int.tdiv (m.shape.getD nd.toNat 0 + chunks - 1) chunks))) := by
  subst hnd
  simp only [constantChunk]
  rw [if_pos ⟨h1, h2⟩]

/-- Ceil-division bounds for the C++ chunk size `(size + chunks - 1) / chunks`
with a non-negative dividend: it is the least `c` with `size ≤ c * chunks`. -/
theorem tdiv_ceil_bounds (size chunks : Int) (hs : 0 ≤ size) (hc : 1 ≤ chunks) :
    size ≤ Int.tdiv (size + chunks - 1) chunks * chunks ∧
    Int.tdiv (size + chunks - 1) chunks * chunks < size + chunks := by
  have hE : Int.tdiv (size + chunks - 1) chunks = (size + chunks - 1) / chunks :=
    Int.tdiv_eq_ediv (by omega) (by omega)
  rw [hE]
  have hadd := Int.ediv_add_emod (size + chunks - 1) chunks
  have hnn := Int.emod_nonneg (size + chunks - 1) (b := chunks) (by omega)
  have hlt := Int.emod_lt_of_pos (size + chunks - 1) (b := chunks) (by omega)
  have hco : (size + chunks - 1) / chunks * chunks = chunks * ((size + chunks - 1) / chunks) :=
    mul_comm _ _
  constructor <;> linarith

/-- Sum of the chunk sizes: `chunks - 1` copies of `c` and one final `r`. -/
theorem sum_map_ite_last (n : Nat) (chunks c r : Int) (hn : (n : Int) = chunks)
    (hpos : 1 ≤ n) :
    ((List.range n).map (fun (i : Nat) => if (i : Int) = chunks - 1 then r else c)).sum
      = ((n - 1 : Nat) : Int) * c + r := by
  obtain ⟨k, rfl⟩ : ∃ k, n = k + 1 := ⟨n - 1, by omega⟩
  rw [List.range_succ, List.map_append, List.sum_append]
  simp only [List.map_cons, List.map_nil, List.sum_cons, List.sum_nil, add_zero]
  rw [if_pos (by omega : ((k : Nat) : Int) = chunks - 1)]
  have hall : ∀ i ∈ List.range k, (if ((i : Nat) : Int) = chunks - 1 then r else c) = c := by
    intro i hi
    have := List.mem_range.mp hi
    rw [if_neg (by omega)]
  rw [List.map_congr_left hall]
  have hrep : (List.range k).map (fun _ => c) = List.replicate k c := by
    simp [List.eq_replicate_iff]
  rw [hrep, List.sum_replicate, nsmul_eq_mul]
  simp

/-- Claim C1: the claim's broadcasting rule (modelled from the spec text as
`broadcastSpec`) succeeds on `([1,2,3], [2,3])` with `[1,2,3]` — the aligned
position where `t1` lacks the dimension takes `t0`'s size 1 — but the source
`binaryOp` takes its first branch there (`t0` has size 1) and reads
`t1[d1 - 1 - i]` with `i ≥ d1`, an out-of-bounds vector access (undefined
behavior in C++); the claim's explicit example `broadcast([5,1,3],[4,3]) =
[5,4,3]` does hold in both. -/
theorem claimC1_binaryOp_reads_out_of_bounds :
    broadcastSpec [1, 2, 3] [2, 3] = .ok [1, 2, 3] ∧
    binaryOpShapes [1, 2, 3] [2, 3] = .error .outOfBounds ∧
    binaryOpShapes [5, 1, 3] [4, 3] = .ok [5, 4, 3] ∧
    broadcastSpec [5, 1, 3] [4, 3] = .ok [5, 4, 3] :=
  ⟨rfl, rfl, rfl, rfl⟩

/-- Claim C4: `constantChunk` on a single input with a valid normalised
dimension and `chunks ≥ 1` returns exactly `chunks` shapes, each the input
shape with only the split dimension replaced; every chunk but the last holds
the ceil-division size (characterised by `size ≤ c·chunks < size + chunks`
for non-negative sizes), the last holds `size − c·(chunks − 1)`; a negative
`dim` is normalised by adding the rank and an out-of-range normalised
dimension fails with `dimOutOfRange`; `split([10,8], dim 0, 3 chunks) =
[[4,8],[4,8],[2,8]]`. -/
theorem claimC4_constantChunk (m : VariableMeta) (chunks dim nd : Int)
    (hnd : nd = if dim < 0 then dim + (m.shape.length : Int) else dim) :
    (¬(nd < (m.shape.length : Int) ∧ 0 ≤ nd) →
      constantChunk [m] chunks dim = .error .dimOutOfRange) ∧
    (nd < (m.shape.length : Int) → 0 ≤ nd → 1 ≤ chunks →
      ∃ outs, constantChunk [m] chunks dim = .ok outs ∧
        outs.length = chunks.toNat ∧
        (∀ i, (hi : i < outs.length) → i ≠ chunks.toNat - 1 →
          outs[i] = m.shape.set nd.toNat
            (Int.tdiv (m.shape.getD nd.toNat 0 + chunks - 1) chunks)) ∧
        (∀ (hlast : chunks.toNat - 1 < outs.length),
          outs[chunks.toNat - 1] = m.shape.set nd.toNat
            (m.shape.getD nd.toNat 0 -
              Int.tdiv (m.shape.getD nd.toNat 0 + chunks - 1) chunks * (chunks - 1))) ∧
        (0 ≤ m.shape.getD nd.toNat 0 →
          m.shape.getD nd.toNat 0 ≤
            Int.tdiv (m.shape.getD nd.toNat 0 + chunks - 1) chunks * chunks ∧
          Int.tdiv (m.shape.getD nd.toNat 0 + chunks - 1) chunks * chunks <
            m.shape.getD nd.toNat 0 + chunks)) ∧
    constantChunk [⟨[10, 8], []⟩] 3 0 = .ok [[4, 8], [4, 8], [2, 8]] := by
  refine ⟨?_, ?_, rfl⟩
  · intro h
    subst hnd
    simp only [constantChunk]
    rw [if_neg h]
  · intro h1 h2 h3
    refine ⟨_, constantChunk_ok m chunks dim nd hnd h1 h2, ?_, ?_, ?_, ?_⟩
    · simp
    · intro i hi hne
      have hi2 : i < chunks.toNat := by simpa using hi
      simp only [List.getElem_map, List.getElem_range]
      rw [if_neg (by omega)]
    · intro hlast
      have hl2 : chunks.toNat - 1 < chunks.toNat := by simpa using hlast
      simp only [List.getElem_map, List.getElem_range]
      rw [if_pos (by omega)]
    · intro hs
      exact tdiv_ceil_bounds (m.shape.getD nd.toNat 0) chunks hs h3

/-- Witness for claim C4 at the spec example with a negative dimension. -/
theorem claimC4_constantChunk_witness :
    ∃ outs, constantChunk [(⟨[10, 8], []⟩ : VariableMeta)] 3 (-2) = .ok outs ∧
      outs.length = 3 := by
  obtain ⟨outs, hok, hlen, _⟩ :=
    (claimC4_constantChunk ⟨[10, 8], []⟩ 3 (-2) 0 (by decide)).2.1 (by decide) (by decide)
      (by decide)
  exact ⟨outs, hok, hlen⟩

/-- Claim C10: the chunk shapes of `constantChunk` conserve the total extent
along the split dimension — `(chunks − 1)·c + (size − c·(chunks − 1)) = size`
— for every valid normalised dimension and every `chunks ≥ 1`, with no
non-negativity assumption on the last chunk's computed size. -/
theorem claimC10_constantChunk_sum (m : VariableMeta) (chunks dim nd : Int)
    (hnd : nd = if dim < 0 then dim + (m.shape.length : Int) else dim)
    (h1 : nd < (m.shape.length : Int)) (h2 : 0 ≤ nd) (h3 : 1 ≤ chunks) :
    ∃ outs, constantChunk [m] chunks dim = .ok outs ∧
      (outs.map (fun s => s.getD nd.toNat 0)).sum = m.shape.getD nd.toNat 0 := by
  refine ⟨_, constantChunk_ok m chunks dim nd hnd h1 h2, ?_⟩
  rw [List.map_map]
  have hndlen : nd.toNat < m.shape.length := by omega
  have hcomp : ∀ i ∈ List.range chunks.toNat,
      ((fun s => List.getD s nd.toNat 0) ∘ (fun (i : Nat) =>
        m.shape.set nd.toNat
          (if (i : Int) = chunks - 1
           then m.shape.getD nd.toNat 0 -
                Int.tdiv (m.shape.getD nd.toNat 0 + chunks - 1) chunks * (chunks - 1)
           else Int.tdiv (m.shape.getD nd.toNat 0 + chunks - 1) chunks))) i
      = (fun i : Nat => if (i : Int) = chunks - 1
           then m.shape.getD nd.toNat 0 -
                Int.tdiv (m.shape.getD nd.toNat 0 + chunks - 1) chunks * (chunks - 1)
           else Int.tdiv (m.shape.getD nd.toNat 0 + chunks - 1) chunks) i := by
    intro i _
    exact getD_set_self m.shape nd.toNat _ hndlen
  rw [List.map_congr_left hcomp]
  rw [sum_map_ite_last chunks.toNat chunks _ _ (by omega) (by omega)]
  have hcast : ((chunks.toNat - 1 : Nat) : Int) = chunks - 1 := by omega
  rw [hcast]
  ring

/-- Witness for claim C10 at the spec example `split([10,8], 0, 3)`. -/
theorem claimC10_constantChunk_sum_witness :
    ∃ outs, constantChunk [(⟨[10, 8], []⟩ : VariableMeta)] 3 0 = .ok outs ∧
      (outs.map (fun s => s.getD 0 0)).sum = 10 := by
  obtain ⟨outs, hok, hsum⟩ :=
    claimC10_constantChunk_sum ⟨[10, 8], []⟩ 3 0 0 (by decide) (by decide) (by decide)
      (by decide)
  exact ⟨outs, hok, hsum⟩

/-- Claim C6: the matrix-product rule `mm` requires exactly two inputs
(`arityMismatch` otherwise), both of rank 2 (`rankMismatch` otherwise), and
agreeing inner dimensions (`shapeMismatch` carrying the two sizes otherwise),
and then yields `[t0[0], t1[1]]`; in particular `mm([2,3],[3,4]) = [2,4]` and
`mm([2,3],[4,5])` fails with a shape mismatch. -/
theorem claimC6_mm :
    (∀ ms : List VariableMeta, ms.length ≠ 2 → mm ms = .error .arityMismatch) ∧
    (∀ m0 m1 : VariableMeta, ¬(m1.shape.length = 2 ∧ m0.shape.length = 2) →
      mm [m0, m1] = .error .rankMismatch) ∧
    (∀ m0 m1 : VariableMeta, m0.shape.length = 2 → m1.shape.length = 2 →
      m0.shape.getD 1 0 ≠ m1.shape.getD 0 0 →
      mm [m0, m1] = .error (.shapeMismatch (m0.shape.getD 1 0) (m1.shape.getD 0 0))) ∧
    (∀ m0 m1 : VariableMeta, m0.shape.length = 2 → m1.shape.length = 2 →
      m0.shape.getD 1 0 = m1.shape.getD 0 0 →
      mm [m0, m1] = .ok [m0.shape.getD 0 0, m1.shape.getD 1 0]) ∧
    mm [⟨[2, 3], []⟩, ⟨[3, 4], []⟩] = .ok [2, 4] ∧
    mm [⟨[2, 3], []⟩, ⟨[4, 5], []⟩] = .error (.shapeMismatch 3 4) := by
  refine ⟨?_, ?_, ?_, ?_, rfl, rfl⟩
  · intro ms h
    rcases ms with _ | ⟨a, _ | ⟨b, _ | ⟨c, t⟩⟩⟩
    · rfl
    · rfl
    · exact absurd rfl h
    · rfl
  · intro m0 m1 h
    simp only [mm]
    rw [if_pos h]
  · intro m0 m1 h0 h1 hne
    simp only [mm]
    rw [if_neg (not_not_intro ⟨h1, h0⟩), if_pos hne]
  · intro m0 m1 h0 h1 heq
    simp only [mm]
    rw [if_neg (not_not_intro ⟨h1, h0⟩), if_neg (fun hne => hne heq)]

/-- Witness for claim C6 applying the arity and success parts concretely. -/
theorem claimC6_mm_witness :
    mm [(⟨[5], []⟩ : VariableMeta)] = .error .arityMismatch ∧
    mm [(⟨[5, 6], []⟩ : VariableMeta), ⟨[6, 7], []⟩] = .ok [5, 7] :=
  ⟨claimC6_mm.1 [⟨[5], []⟩] (by decide),
   claimC6_mm.2.2.2.1 ⟨[5, 6], []⟩ ⟨[6, 7], []⟩ rfl rfl rfl⟩

/-- Claim C7: `addmm` requires at least three inputs (`arityMismatch`
otherwise); when the third input's shape has rank 1 the result broadcasts
the bias shape against the second input's shape directly, and otherwise it
broadcasts the bias shape against `mm` of the second and third inputs, with
any `mm` failure propagated (the `bind`). -/
theorem claimC7_addmm :
    (∀ ms : List VariableMeta, ms.length < 3 → addmm ms = .error .arityMismatch) ∧
    (∀ m0 m1 m2 : VariableMeta, ∀ rest : List VariableMeta, m2.shape.length = 1 →
      addmm (m0 :: m1 :: m2 :: rest) = binaryOpShapes m0.shape m1.shape) ∧
    (∀ m0 m1 m2 : VariableMeta, ∀ rest : List VariableMeta, m2.shape.length ≠ 1 →
      addmm (m0 :: m1 :: m2 :: rest) =
        (mm [m1, m2]).bind (fun s => binaryOpShapes m0.shape s)) := by
  refine ⟨?_, ?_, ?_⟩
  · intro ms h
    rcases ms with _ | ⟨a, _ | ⟨b, _ | ⟨c, t⟩⟩⟩
    · rfl
    · rfl
    · rfl
    · simp at h
      omega
  · intro m0 m1 m2 rest h
    simp only [addmm]
    rw [if_pos h]
    rfl
  · intro m0 m1 m2 rest h
    simp only [addmm]
    rw [if_neg h]
    rcases hres : mm [m1, m2] with e | s
    · rfl
    · rfl

/-- Witness for claim C7 applying the non-degenerate branch concretely. -/
theorem claimC7_addmm_witness :
    addmm [(⟨[1, 4], []⟩ : VariableMeta), ⟨[2, 3], []⟩, ⟨[3, 4], []⟩] =
      (mm [(⟨[2, 3], []⟩ : VariableMeta), ⟨[3, 4], []⟩]).bind
        (fun s => binaryOpShapes [1, 4] s) :=
  claimC7_addmm.2.2 ⟨[1, 4], []⟩ ⟨[2, 3], []⟩ ⟨[3, 4], []⟩ [] (by decide)

/-- Equal-length lists in which a value occurs in the second zip to a pair
carrying that value. -/
theorem zip_mem_other : ∀ (ids : List Nat) (vs : List IValue),
    ids.length = vs.length → IValue.other ∈ vs →
    ∃ p ∈ ids.zip vs, p.2 = IValue.other := by
  intro ids
  induction ids with
  | nil =>
    intro vs h hmem
    cases vs with
    | nil => simp at hmem
    | cons v vs => simp at h
  | cons i ids ih =>
    intro vs h hmem
    cases vs with
    | nil => simp at h
    | cons v vs =>
      rcases List.mem_cons.mp hmem with rfl | hmem2
      · exact ⟨(i, IValue.other), by simp, rfl⟩
      · obtain ⟨p, hp, hp2⟩ := ih vs (by simpa using h) hmem2
        exact ⟨p, by simp [hp], hp2⟩

/-- The input materialiser fails with `unsupportedInputKind` whenever some
pair carries an unsupported instance (the only error it can raise). -/
theorem getGraphIntputShape_other : ∀ (pairs : List (Nat × IValue)) (st : Store),
    (∃ p ∈ pairs, p.2 = IValue.other) →
    (getGraphIntputShape st pairs).2 = some .unsupportedInputKind := by
  intro pairs
  induction pairs with
  | nil =>
    intro st h
    simp at h
  | cons p rest ih =>
    intro st h
    obtain ⟨id, v⟩ := p
    rcases h with ⟨q, hq, hq2⟩
    rcases List.mem_cons.mp hq with rfl | hmem
    · simp only at hq2
      subst hq2
      rfl
    · cases v with
      | tensor dims => exact ih _ ⟨q, hmem, hq2⟩
      | bool b => exact ih _ ⟨q, hmem, hq2⟩
      | int w => exact ih _ ⟨q, hmem, hq2⟩
      | intList l => exact ih _ ⟨q, hmem, hq2⟩
      | other => rfl

/-- Claim C8: the input materialiser maps a tensor instance to its dimension
sizes with no scalar payload, a bool or int instance to shape `[1]` with the
value as payload, an integer list of length `N` to shape `[N, 1]` with the
elements as payload, and any other instance to `unsupportedInputKind`; a pass
whose inputs contain an unsupported instance fails with that error. -/
theorem claimC8_materializer :
    (∀ dims : List Int, materializeInput (.tensor dims) = .ok ⟨dims, []⟩) ∧
    (∀ b : Bool, materializeInput (.bool b) = .ok ⟨[1], [if b then 1 else 0]⟩) ∧
    (∀ v : Int, materializeInput (.int v) = .ok ⟨[1], [v]⟩) ∧
    (∀ l : List Int, materializeInput (.intList l) = .ok ⟨[(l.length : Int), 1], l⟩) ∧
    materializeInput .other = .error .unsupportedInputKind ∧
    (∀ (g : Graph) (inputs : List IValue), inputs.length = g.inputs.length →
      IValue.other ∈ inputs → (run g inputs).err = some .unsupportedInputKind) := by
  refine ⟨fun _ => rfl, fun _ => rfl, fun _ => rfl, fun _ => rfl, rfl, ?_⟩
  intro g inputs hlen hmem
  obtain ⟨p, hp, hp2⟩ := zip_mem_other g.inputs inputs hlen.symm hmem
  have h2 : (getGraphIntputShape [] (g.inputs.zip inputs)).2 = some .unsupportedInputKind :=
    getGraphIntputShape_other _ [] ⟨p, hp, hp2⟩
  simp only [run]
  rw [if_neg (not_not_intro hlen)]
  rcases hg : getGraphIntputShape [] (g.inputs.zip inputs) with ⟨st, e⟩
  rw [hg] at h2
  simp only at h2
  subst h2
  rfl

/-- Witness for claim C8 at a one-input graph fed an unsupported instance. -/
theorem claimC8_materializer_witness :
    (run ⟨[0], [], []⟩ [IValue.other]).err = some .unsupportedInputKind :=
  claimC8_materializer.2.2.2.2.2 ⟨[0], [], []⟩ [IValue.other] rfl (by simp)

/-- In-bounds positions from the right hold some value. -/
theorem revGet_some (l : List Int) (i : Nat) (h : i < l.length) :
    ∃ v, revGet l i = some v := by
  have h2 : i < l.reverse.length := by simpa using h
  exact ⟨l.reverse[i], List.getElem?_eq_getElem h2⟩

/-- Out-of-bounds positions from the right hold nothing. -/
theorem revGet_none (l : List Int) (i : Nat) (h : l.length ≤ i) :
    revGet l i = Option.none := by
  apply List.getElem?_eq_none
  simpa using h

/-- When both operand orders produce a value at an aligned position, the two
values agree (the broadcasting loop body is symmetric on its success set). -/
theorem broadcastEntry_comm (A B : List Int) (i : Nat) (v w : Int)
    (h1 : broadcastEntry A B i = .ok v) (h2 : broadcastEntry B A i = .ok w) : v = w := by
  by_cases hA : A.length ≤ i ∨ revGet A i = some 1 <;>
    by_cases hB : B.length ≤ i ∨ revGet B i = some 1
  · rw [broadcastEntry, if_pos hA] at h1
    rw [broadcastEntry, if_pos hB] at h2
    rcases hBi : revGet B i with _ | b
    · rw [hBi] at h1
      simp at h1
    · rcases hAi : revGet A i with _ | a
      · rw [hAi] at h2
        simp at h2
      · rw [hBi] at h1
        rw [hAi] at h2
        simp only [Except.ok.injEq] at h1 h2
        have hb1 : b = 1 := by
          rcases hB with hB | hB
          · rw [revGet_none B i hB] at hBi
            exact absurd hBi (by simp)
          · rw [hB] at hBi
            exact (Option.some.inj hBi).symm
        have ha1 : a = 1 := by
          rcases hA with hA | hA
          · rw [revGet_none A i hA] at hAi
            exact absurd hAi (by simp)
          · rw [hA] at hAi
            exact (Option.some.inj hAi).symm
        omega
  · rw [broadcastEntry, if_pos hA] at h1
    rw [broadcastEntry, if_neg hB, if_pos hA] at h2
    rw [not_or] at hB
    obtain ⟨b, hBi⟩ := revGet_some B i (not_le.mp hB.1)
    rw [hBi] at h1 h2
    simp only [Except.ok.injEq] at h1 h2
    omega
  · rw [broadcastEntry, if_neg hA, if_pos hB] at h1
    rw [broadcastEntry, if_pos hB] at h2
    rw [not_or] at hA
    obtain ⟨a, hAi⟩ := revGet_some A i (not_le.mp hA.1)
    rw [hAi] at h1 h2
    simp only [Except.ok.injEq] at h1 h2
    omega
  · rw [broadcastEntry, if_neg hA, if_neg hB] at h1
    rw [broadcastEntry, if_neg hB, if_neg hA] at h2
    rw [not_or] at hA hB
    obtain ⟨a, hAi⟩ := revGet_some A i (not_le.mp hA.1)
    obtain ⟨b, hBi⟩ := revGet_some B i (not_le.mp hB.1)
    rw [hAi, hBi] at h1
    rw [hAi, hBi] at h2
    have h1b : (if b ≠ a then Except.error (ShapeError.shapeMismatch a b)
        else Except.ok b) = Except.ok v := h1
    have h2b : (if a ≠ b then Except.error (ShapeError.shapeMismatch b a)
        else Except.ok a) = Except.ok w := h2
    by_cases hab : b = a
    · subst hab
      rw [if_neg (by simp)] at h1b
      rw [if_neg (by simp)] at h2b
      simp only [Except.ok.injEq] at h1b h2b
      omega
    · rw [if_pos hab] at h1b
      simp at h1b

/-- Pointwise-agreeing fallible maps that both succeed produce equal lists. -/
theorem mapME_comm (f g : Nat → Except ShapeError Int) : ∀ (xs : List Nat) (l l2 : List Int),
    mapME f xs = .ok l → mapME g xs = .ok l2 →
    (∀ x ∈ xs, ∀ v w, f x = .ok v → g x = .ok w → v = w) → l = l2 := by
  intro xs
  induction xs with
  | nil =>
    intro l l2 h1 h2 _
    simp only [mapME, Except.ok.injEq] at h1 h2
    rw [← h1, ← h2]
  | cons x xs ih =>
    intro l l2 h1 h2 hfg
    rw [mapME] at h1 h2
    rcases hfx : f x with e | v
    · rw [hfx] at h1
      simp at h1
    · rcases hgx : g x with e | w
      · rw [hgx] at h2
        simp at h2
      · rw [hfx] at h1
        rw [hgx] at h2
        rcases hms1 : mapME f xs with e1 | vs
        · rw [hms1] at h1
          simp at h1
        · rcases hms2 : mapME g xs with e2 | ws
          · rw [hms2] at h2
            simp at h2
          · rw [hms1] at h1
            rw [hms2] at h2
            simp only [Except.ok.injEq] at h1 h2
            subst h1
            subst h2
            have hvw : v = w := hfg x (by simp) v w hfx hgx
            have hvs : vs = ws :=
              ih vs ws hms1 hms2 (fun y hy => hfg y (by simp [hy]))
            rw [hvw, hvs]

/-- Counterexample to claim C2 as stated: both shapes have rank 1, so each
order returns its own first operand verbatim, both orders succeed, and the
results differ. -/
theorem claimC2_counterexample :
    binaryOpShapes [5] [3] = .ok [5] ∧ binaryOpShapes [3] [5] = .ok [3] ∧
    ([5] : List Int) ≠ [3] :=
  ⟨rfl, rfl, by decide⟩

/-- Claim C2 (amended): for shapes `A`, `B` neither of which has rank 1, if
the binary elementwise rule succeeds in both argument orders then the two
resulting shapes are equal.  (Rank-1 operands take the scalar early-return
`result = t0` and break commutativity, as the counterexample shows.) -/
theorem claimC2_broadcast_comm (A B rA rB : List Int)
    (hA : A.length ≠ 1) (hB : B.length ≠ 1)
    (h1 : binaryOpShapes A B = .ok rA) (h2 : binaryOpShapes B A = .ok rB) : rA = rB := by
  rw [binaryOpShapes, if_neg hB] at h1
  rw [binaryOpShapes, if_neg hA, Nat.max_comm] at h2
  rcases hm1 : mapME (broadcastEntry A B) (List.range (max A.length B.length)) with e | l
  · rw [hm1] at h1
    simp [Except.map] at h1
  · rcases hm2 : mapME (broadcastEntry B A) (List.range (max A.length B.length)) with e | l2
    · rw [hm2] at h2
      simp [Except.map] at h2
    · rw [hm1] at h1
      rw [hm2] at h2
      simp only [Except.map, Except.ok.injEq] at h1 h2
      subst h1
      subst h2
      have : l = l2 :=
        mapME_comm _ _ _ l l2 hm1 hm2
          (fun i _ v w hv hw => broadcastEntry_comm A B i v w hv hw)
      rw [this]

/-- Witness for the amended claim C2 at the spec's own broadcast example. -/
theorem claimC2_broadcast_comm_witness : ([5, 4, 3] : List Int) = [5, 4, 3] :=
  claimC2_broadcast_comm [5, 1, 3] [4, 3] [5, 4, 3] [5, 4, 3]
    (by decide) (by decide) rfl rfl

instance : DecidablePred Nonneg :=
  fun l => decidable_of_iff (∀ x ∈ l, 0 ≤ x) Iff.rfl

/-- Values found from the right are members of the list. -/
theorem revGet_mem (l : List Int) (i : Nat) (v : Int) (h : revGet l i = some v) : v ∈ l := by
  rw [revGet] at h
  obtain ⟨hlt, hv⟩ := List.getElem?_eq_some.mp h
  rw [← hv]
  exact List.mem_reverse.mp (List.getElem_mem hlt)

/-- In-bounds `getD` reads are members of the list. -/
theorem getD_mem : ∀ (l : List Int) (k : Nat), k < l.length → l.getD k 0 ∈ l
  | a :: l, 0, _ => by simp
  | a :: l, k + 1, h => by
    have hm := getD_mem l k (by simpa using h)
    simpa using Or.inr hm
  | [], _, h => absurd h (by simp)

/-- Every value in a successful broadcast position comes from one operand. -/
theorem broadcastEntry_mem (t0 t1 : List Int) (i : Nat) (v : Int)
    (h : broadcastEntry t0 t1 i = .ok v) : v ∈ t0 ∨ v ∈ t1 := by
  rw [broadcastEntry] at h
  split at h
  · rcases hB : revGet t1 i with _ | b
    · rw [hB] at h
      simp at h
    · rw [hB] at h
      simp only [Except.ok.injEq] at h
      subst h
      exact Or.inr (revGet_mem _ _ _ hB)
  · split at h
    · rcases hA : revGet t0 i with _ | a
      · rw [hA] at h
        simp at h
      · rw [hA] at h
        simp only [Except.ok.injEq] at h
        subst h
        exact Or.inl (revGet_mem _ _ _ hA)
    · rcases hA : revGet t0 i with _ | a
      · rw [hA] at h
        simp at h
      · rcases hB : revGet t1 i with _ | b
        · rw [hA, hB] at h
          simp at h
        · rw [hA, hB] at h
          have h2 : (if b ≠ a then Except.error (ShapeError.shapeMismatch a b)
              else Except.ok b) = Except.ok v := h
          split at h2
          · simp at h2
          · simp only [Except.ok.injEq] at h2
            subst h2
            exact Or.inr (revGet_mem _ _ _ hB)

/-- Every element of a successful `mapME` image has a preimage. -/
theorem mapME_mem (f : Nat → Except ShapeError Int) : ∀ (xs : List Nat) (l : List Int),
    mapME f xs = .ok l → ∀ v ∈ l, ∃ x ∈ xs, f x = .ok v := by
  intro xs
  induction xs with
  | nil =>
    intro l h v hv
    simp only [mapME, Except.ok.injEq] at h
    subst h
    simp at hv
  | cons x xs ih =>
    intro l h v hv
    rw [mapME] at h
    rcases hfx : f x with e | b
    · rw [hfx] at h
      simp at h
    · rw [hfx] at h
      rcases hms : mapME f xs with e | bs
      · rw [hms] at h
        simp at h
      · rw [hms] at h
        simp only [Except.ok.injEq] at h
        subst h
        rcases List.mem_cons.mp hv with rfl | hv2
        · exact ⟨x, by simp, hfx⟩
        · obtain ⟨y, hy, hfy⟩ := ih bs hms v hv2
          exact ⟨y, by simp [hy], hfy⟩

/-- The broadcast rule preserves non-negative shapes. -/
theorem binaryOpShapes_nonneg (t0 t1 r : List Int) (h0 : Nonneg t0) (h1 : Nonneg t1)
    (h : binaryOpShapes t0 t1 = .ok r) : Nonneg r := by
  rw [binaryOpShapes] at h
  split at h
  · simp only [Except.ok.injEq] at h
    subst h
    exact h0
  · rcases hm : mapME (broadcastEntry t0 t1) (List.range (max t0.length t1.length)) with e | l
    · rw [hm] at h
      simp [Except.map] at h
    · rw [hm] at h
      simp only [Except.map, Except.ok.injEq] at h
      subst h
      intro x hx
      rw [List.mem_reverse] at hx
      obtain ⟨i, _, hfi⟩ := mapME_mem _ _ _ hm x hx
      rcases broadcastEntry_mem t0 t1 i x hfi with hmem | hmem
      · exact h0 x hmem
      · exact h1 x hmem

/-- The matrix-product rule preserves non-negative shapes. -/
theorem mm_nonneg (m0 m1 : VariableMeta) (r : List Int)
    (h0 : Nonneg m0.shape) (h1 : Nonneg m1.shape) (h : mm [m0, m1] = .ok r) : Nonneg r := by
  simp only [mm] at h
  split at h
  · simp at h
  · split at h
    · simp at h
    · rename_i hrank hmis
      rw [not_not] at hrank
      obtain ⟨hl1, hl0⟩ := hrank
      simp only [Except.ok.injEq] at h
      subst h
      intro x hx
      rcases List.mem_cons.mp hx with rfl | hx2
      · exact h0 _ (getD_mem _ _ (by omega))
      · rcases List.mem_cons.mp hx2 with rfl | hx3
        · exact h1 _ (getD_mem _ _ (by omega))
        · simp at hx3

/-- The batched matrix-product rule preserves non-negative shapes. -/
theorem bmm_nonneg (m0 m1 : VariableMeta) (r : List Int)
    (h0 : Nonneg m0.shape) (h1 : Nonneg m1.shape) (h : bmm [m0, m1] = .ok r) : Nonneg r := by
  simp only [bmm] at h
  split at h
  · simp at h
  · split at h
    · simp at h
    · split at h
      · simp at h
      · rename_i hrank hb hinner
        rw [not_not] at hrank
        obtain ⟨hl0, hl1⟩ := hrank
        simp only [Except.ok.injEq] at h
        subst h
        intro x hx
        rcases List.mem_cons.mp hx with rfl | hx2
        · exact h0 _ (getD_mem _ _ (by omega))
        · rcases List.mem_cons.mp hx2 with rfl | hx3
          · exact h0 _ (getD_mem _ _ (by omega))
          · rcases List.mem_cons.mp hx3 with rfl | hx4
            · exact h1 _ (getD_mem _ _ (by omega))
            · simp at hx4

/-- The affine matrix-product rule preserves non-negative shapes. -/
theorem addmm_nonneg (ms : List VariableMeta) (r : List Int)
    (hms : ∀ m ∈ ms, Nonneg m.shape) (h : addmm ms = .ok r) : Nonneg r := by
  rcases ms with _ | ⟨m0, _ | ⟨m1, _ | ⟨m2, rest⟩⟩⟩
  · simp [addmm] at h
  · simp [addmm] at h
  · simp [addmm] at h
  · simp only [addmm] at h
    split at h
    · exact binaryOpShapes_nonneg _ _ _ (hms m0 (by simp)) (hms m1 (by simp)) h
    · rcases hm2 : mm [m1, m2] with e | s
      · rw [hm2] at h
        simp at h
      · rw [hm2] at h
        have hsN : Nonneg s := mm_nonneg m1 m2 s (hms m1 (by simp)) (hms m2 (by simp)) hm2
        exact binaryOpShapes_nonneg _ _ _ (hms m0 (by simp)) hsN h

/-- The trailing equality checks of the concat inner loop preserve
non-negative shapes. -/
theorem concatZipTail_nonneg : ∀ (as bs r : List Int), concatZipTail as bs = .ok r →
    Nonneg as → Nonneg bs → Nonneg r := by
  intro as
  induction as with
  | nil =>
    intro bs r h _ _
    cases bs with
    | nil =>
      simp only [concatZipTail, Except.ok.injEq] at h
      subst h
      intro x hx
      simp at hx
    | cons b bs => simp [concatZipTail] at h
  | cons a as ih =>
    intro bs r h hA hB
    cases bs with
    | nil => simp [concatZipTail] at h
    | cons b bs =>
      rw [concatZipTail] at h
      split at h
      · simp at h
      · rcases ht : concatZipTail as bs with e | r2
        · rw [ht] at h
          simp [Except.map] at h
        · rw [ht] at h
          simp only [Except.map, Except.ok.injEq] at h
          subst h
          intro x hx
          rcases List.mem_cons.mp hx with rfl | hx2
          · exact hA _ (by simp)
          · exact ih bs r2 ht (fun y hy => hA y (by simp [hy]))
              (fun y hy => hB y (by simp [hy])) x hx2

/-- The concat inner loop preserves non-negative shapes (the summed concat
dimension is a sum of non-negatives). -/
theorem concatZip_nonneg : ∀ (d : Nat) (as bs r : List Int), concatZip d as bs = .ok r →
    Nonneg as → Nonneg bs → Nonneg r := by
  intro d as
  induction as generalizing d with
  | nil =>
    intro bs r h _ _
    cases bs with
    | nil =>
      cases d <;> simp only [concatZip, Except.ok.injEq] at h <;> subst h <;>
        exact fun x hx => absurd hx (by simp)
    | cons b bs => cases d <;> simp [concatZip] at h
  | cons a as ih =>
    intro bs r h hA hB
    cases bs with
    | nil => cases d <;> simp [concatZip] at h
    | cons b bs =>
      cases d with
      | zero =>
        rw [concatZip] at h
        rcases ht : concatZipTail as bs with e | r2
        · rw [ht] at h
          simp [Except.map] at h
        · rw [ht] at h
          simp only [Except.map, Except.ok.injEq] at h
          subst h
          intro x hx
          rcases List.mem_cons.mp hx with rfl | hx2
          · have ha := hA a (by simp)
            have hb := hB b (by simp)
            omega
          · exact concatZipTail_nonneg as bs r2 ht (fun y hy => hA y (by simp [hy]))
              (fun y hy => hB y (by simp [hy])) x hx2
      | succ d2 =>
        rw [concatZip] at h
        split at h
        · simp at h
        · rcases ht : concatZip d2 as bs with e | r2
          · rw [ht] at h
            simp [Except.map] at h
          · rw [ht] at h
            simp only [Except.map, Except.ok.injEq] at h
            subst h
            intro x hx
            rcases List.mem_cons.mp hx with rfl | hx2
            · exact hA _ (by simp)
            · exact ih d2 bs r2 ht (fun y hy => hA y (by simp [hy]))
                (fun y hy => hB y (by simp [hy])) x hx2

/-- The concat outer loop preserves non-negative shapes. -/
theorem fusedConcatLoop_nonneg (nd inDims : Nat) : ∀ (ms : List VariableMeta)
    (shape r : List Int), fusedConcatLoop nd inDims shape ms = .ok r → Nonneg shape →
    (∀ m ∈ ms, Nonneg m.shape) → Nonneg r := by
  intro ms
  induction ms with
  | nil =>
    intro shape r h hs _
    simp only [fusedConcatLoop, Except.ok.injEq] at h
    subst h
    exact hs
  | cons m ms ih =>
    intro shape r h hs hms
    simp only [fusedConcatLoop] at h
    split at h
    · simp at h
    · rcases hz : concatZip nd shape m.shape with e | shape2
      · rw [hz] at h
        simp at h
      · rw [hz] at h
        exact ih shape2 r h
          (concatZip_nonneg nd shape m.shape shape2 hz hs (hms m (by simp)))
          (fun y hy => hms y (by simp [hy]))

/-- The concatenation rule preserves non-negative shapes. -/
theorem fusedConcat_nonneg (ms : List VariableMeta) (dim : Int) (r : List Int)
    (hms : ∀ m ∈ ms, Nonneg m.shape) (h : fusedConcat ms dim = .ok r) : Nonneg r := by
  rcases ms with _ | ⟨m0, _ | ⟨m1, ms2⟩⟩
  · simp [fusedConcat] at h
  · simp only [fusedConcat, Except.ok.injEq] at h
    subst h
    exact hms m0 (by simp)
  · simp only [fusedConcat] at h
    by_cases hin : (if dim < 0 then dim + (m0.shape.length : Int) else dim)
        < (m0.shape.length : Int) ∧
        0 ≤ (if dim < 0 then dim + (m0.shape.length : Int) else dim)
    · rw [if_pos hin] at h
      exact fusedConcatLoop_nonneg _ _ _ _ _ h (hms m0 (by simp))
        (fun y hy => hms y (List.mem_cons_of_mem m0 hy))
    · rw [if_neg hin] at h
      simp at h

/-- All chunk shapes except the last preserve non-negative shapes. -/
theorem constantChunk_nonneg (m : VariableMeta) (chunks dim : Int) (outs : List (List Int))
    (hm : Nonneg m.shape) (hc : 1 ≤ chunks)
    (h : constantChunk [m] chunks dim = .ok outs) :
    ∀ i, (hi : i < outs.length) → i ≠ outs.length - 1 → Nonneg outs[i] := by
  by_cases hin : (if dim < 0 then dim + (m.shape.length : Int) else dim)
      < (m.shape.length : Int) ∧
      0 ≤ (if dim < 0 then dim + (m.shape.length : Int) else dim)
  · rw [constantChunk_ok m chunks dim _ rfl hin.1 hin.2] at h
    obtain ⟨hr1, hr2⟩ := hin
    simp only [Except.ok.injEq] at h
    subst h
    intro i hi hine
    simp only [List.length_map, List.length_range] at hi hine
    simp only [List.getElem_map, List.getElem_range]
    have hndlt : (if dim < 0 then dim + (m.shape.length : Int) else dim).toNat
        < m.shape.length := by omega
    rw [if_neg (by omega : ¬((i : Int) = chunks - 1))]
    intro x hx
    rcases List.mem_or_eq_of_mem_set hx with hx2 | rfl
    · exact hm x hx2
    · have hsz : 0 ≤ m.shape.getD (if dim < 0 then dim + (m.shape.length : Int)
          else dim).toNat 0 := hm _ (getD_mem _ _ hndlt)
      rw [Int.tdiv_eq_ediv (by omega) (by omega)]
      exact Int.ediv_nonneg (by omega) (by omega)
  · simp only [constantChunk] at h
    rw [if_neg hin] at h
    simp at h

/-- Counterexample to claim C3 as stated: the split rule applied to shape
`[1,8]` with 3 chunks yields `[-1, 8]` as its last chunk — a negative entry
produced from an all-non-negative input. -/
theorem claimC3_counterexample :
    constantChunk [(⟨[1, 8], []⟩ : VariableMeta)] 3 0 = .ok [[1, 8], [1, 8], [-1, 8]] ∧
    ¬ Nonneg [-1, 8] :=
  ⟨rfl, fun h => absurd (h (-1) (by simp)) (by omega)⟩

/-- Claim C3 (amended): given inputs whose dimension sizes are all
non-negative, every operator rule produces only non-negative shape entries —
except the split rule, whose chunks other than the last are non-negative
while the last chunk's computed size can be negative (for example dimension
size 1 split into 3 chunks, see the counterexample). -/
theorem claimC3_rules_nonneg :
    (∀ t0 t1 r : List Int, Nonneg t0 → Nonneg t1 →
      binaryOpShapes t0 t1 = .ok r → Nonneg r) ∧
    (∀ m0 m1 : VariableMeta, ∀ r : List Int, Nonneg m0.shape → Nonneg m1.shape →
      mm [m0, m1] = .ok r → Nonneg r) ∧
    (∀ m0 m1 : VariableMeta, ∀ r : List Int, Nonneg m0.shape → Nonneg m1.shape →
      bmm [m0, m1] = .ok r → Nonneg r) ∧
    (∀ ms : List VariableMeta, ∀ r : List Int, (∀ m ∈ ms, Nonneg m.shape) →
      addmm ms = .ok r → Nonneg r) ∧
    (∀ ms : List VariableMeta, ∀ dim : Int, ∀ r : List Int, (∀ m ∈ ms, Nonneg m.shape) →
      fusedConcat ms dim = .ok r → Nonneg r) ∧
    (∀ m : VariableMeta, ∀ chunks dim : Int, ∀ outs : List (List Int), Nonneg m.shape →
      1 ≤ chunks → constantChunk [m] chunks dim = .ok outs →
      ∀ i, (hi : i < outs.length) → i ≠ outs.length - 1 → Nonneg outs[i]) :=
  ⟨binaryOpShapes_nonneg,
   mm_nonneg,
   bmm_nonneg,
   addmm_nonneg,
   fusedConcat_nonneg,
   constantChunk_nonneg⟩

/-- Witness for the amended claim C3 at concrete broadcast and concat uses. -/
theorem claimC3_rules_nonneg_witness :
    Nonneg [5, 4, 3] ∧ Nonneg [2, 7] :=
  ⟨claimC3_rules_nonneg.1 [5, 1, 3] [4, 3] [5, 4, 3] (by decide) (by decide) rfl,
   claimC3_rules_nonneg.2.2.2.2.1 [⟨[2, 3], []⟩, ⟨[2, 4], []⟩] 1 [2, 7]
     (by decide) rfl⟩

/-- Lists of equal length that agree at every `getD` position are equal. -/
theorem list_eq_of_getD : ∀ (as bs : List Int), as.length = bs.length →
    (∀ j, j < as.length → as.getD j 0 = bs.getD j 0) → as = bs
  | [], [], _, _ => rfl
  | a :: as, b :: bs, h, hp => by
    have h0 := hp 0 (by simp)
    simp only [List.getD_cons_zero] at h0
    have ht := list_eq_of_getD as bs (by simpa using h)
      (fun j hj => by simpa using hp (j + 1) (by simpa using hj))
    rw [h0, ht]
  | [], _ :: _, h, _ => by simp at h
  | _ :: _, [], h, _ => by simp at h

/-- The trailing concat checks succeed on a list paired with itself. -/
theorem concatZipTail_self : ∀ as : List Int, concatZipTail as as = .ok as := by
  intro as
  induction as with
  | nil => rfl
  | cons a as ih =>
    show concatZipTail (a :: as) (a :: as) = .ok (a :: as)
    rw [concatZipTail, if_neg (fun hk => hk rfl), ih]
    rfl

/-- Success form of the concat inner loop: when the two rows agree off the
concat position, the result is the first row with the concat position summed. -/
theorem concatZip_ok : ∀ (nd : Nat) (shape s : List Int), shape.length = s.length →
    nd < shape.length →
    (∀ j, j < shape.length → j ≠ nd → s.getD j 0 = shape.getD j 0) →
    concatZip nd shape s = .ok (shape.set nd (shape.getD nd 0 + s.getD nd 0)) := by
  intro nd shape
  induction shape generalizing nd with
  | nil =>
    intro s h hnd hp
    simp at hnd
  | cons a as ih =>
    intro s h hnd hp
    cases s with
    | nil => simp at h
    | cons b bs =>
      cases nd with
      | zero =>
        have hbs : bs = as := by
          apply list_eq_of_getD bs as (by simpa using h.symm)
          intro j hj
          have hj2 : j + 1 < (a :: as).length := by
            simp only [List.length_cons]
            have hlen := h
            simp only [List.length_cons] at hlen
            omega
          have := hp (j + 1) hj2 (by omega)
          simpa using this
        rw [hbs, concatZip, concatZipTail_self]
        rfl
      | succ d =>
        have hab : b = a := by
          have := hp 0 (by simp) (by omega)
          simpa using this
        rw [hab, concatZip, if_neg (fun hk => hk rfl),
          ih d bs (by simpa using h) (by simpa using hnd)
            (fun j hj hjn => by simpa using hp (j + 1) (by simpa using hj) (by omega))]
        rfl

/-- Failure form of the trailing concat checks: a differing pair yields a
`shapeMismatch` whose two payloads differ. -/
theorem concatZipTail_mismatch : ∀ (as bs : List Int), as.length = bs.length →
    (∃ j, j < as.length ∧ bs.getD j 0 ≠ as.getD j 0) →
    ∃ a b, concatZipTail as bs = .error (.shapeMismatch a b) ∧ a ≠ b := by
  intro as
  induction as with
  | nil =>
    intro bs h hex
    obtain ⟨j, hj, _⟩ := hex
    simp at hj
  | cons a as ih =>
    intro bs h hex
    cases bs with
    | nil => simp at h
    | cons b bs =>
      by_cases hab : a = b
      · subst hab
        obtain ⟨j, hj, hne⟩ := hex
        cases j with
        | zero => simp at hne
        | succ j2 =>
          obtain ⟨x, y, hzip, hxy⟩ := ih bs (by simpa using h)
            ⟨j2, by simpa using hj, by simpa using hne⟩
          refine ⟨x, y, ?_, hxy⟩
          rw [concatZipTail, if_neg (fun hk => hk rfl), hzip]
          rfl
      · refine ⟨a, b, ?_, hab⟩
        rw [concatZipTail, if_pos hab]

/-- Failure form of the concat inner loop: a differing pair at a non-concat
position yields a `shapeMismatch` whose two payloads differ. -/
theorem concatZip_mismatch : ∀ (nd : Nat) (shape s : List Int), shape.length = s.length →
    nd < shape.length →
    (∃ j, j < shape.length ∧ j ≠ nd ∧ s.getD j 0 ≠ shape.getD j 0) →
    ∃ a b, concatZip nd shape s = .error (.shapeMismatch a b) ∧ a ≠ b := by
  intro nd shape
  induction shape generalizing nd with
  | nil =>
    intro s h hnd hex
    simp at hnd
  | cons a as ih =>
    intro s h hnd hex
    cases s with
    | nil => simp at h
    | cons b bs =>
      cases nd with
      | zero =>
        obtain ⟨j, hj, hjne, hne⟩ := hex
        cases j with
        | zero => exact absurd rfl hjne
        | succ j2 =>
          obtain ⟨x, y, hzip, hxy⟩ := concatZipTail_mismatch as bs (by simpa using h)
            ⟨j2, by simpa using hj, by simpa using hne⟩
          refine ⟨x, y, ?_, hxy⟩
          rw [concatZip, hzip]
          rfl
      | succ d =>
        by_cases hab : a = b
        · subst hab
          obtain ⟨j, hj, hjne, hne⟩ := hex
          cases j with
          | zero => simp at hne
          | succ j2 =>
            obtain ⟨x, y, hzip, hxy⟩ := ih d bs (by simpa using h) (by simpa using hnd)
              ⟨j2, by simpa using hj, by omega, by simpa using hne⟩
            refine ⟨x, y, ?_, hxy⟩
            rw [concatZip, if_neg (fun hk => hk rfl), hzip]
            rfl
        · refine ⟨a, b, ?_, hab⟩
          rw [concatZip, if_pos hab]

/-- Success form of the concat outer loop: all later rows of the right rank
agreeing off the concat position fold into the base row with the concat
position accumulating the sum. -/
theorem fusedConcatLoop_ok (nd inDims : Nat) : ∀ (ms : List VariableMeta) (shape : List Int),
    shape.length = inDims → nd < inDims →
    (∀ m ∈ ms, m.shape.length = inDims) →
    (∀ m ∈ ms, ∀ j, j < inDims → j ≠ nd → m.shape.getD j 0 = shape.getD j 0) →
    fusedConcatLoop nd inDims shape ms =
      .ok (shape.set nd (shape.getD nd 0 + (ms.map (fun m => m.shape.getD nd 0)).sum)) := by
  intro ms
  induction ms with
  | nil =>
    intro shape hlen hnd _ _
    show Except.ok shape = _
    rw [List.map_nil, List.sum_nil, add_zero, set_getD_self shape nd (by omega)]
  | cons m ms ih =>
    intro shape hlen hnd hranks hdims
    rw [List.map_cons, List.sum_cons]
    rw [fusedConcatLoop, if_neg (fun hk => hk (hranks m (by simp)).symm),
      concatZip_ok nd shape m.shape (hlen.trans (hranks m (by simp)).symm) (by omega)
        (fun j hj hjn => hdims m (by simp) j (by omega) hjn)]
    show fusedConcatLoop nd inDims (shape.set nd (shape.getD nd 0 + m.shape.getD nd 0)) ms = _
    rw [ih (shape.set nd (shape.getD nd 0 + m.shape.getD nd 0))
      (by rw [List.length_set]; exact hlen) hnd
      (fun y hy => hranks y (List.mem_cons_of_mem m hy))
      (fun y hy j hj hjn => by
        rw [getD_set_ne shape nd j _ hjn]
        exact hdims y (List.mem_cons_of_mem m hy) j hj hjn)]
    rw [List.set_set, getD_set_self shape nd _ (by omega), add_assoc]

/-- Failure form of the concat outer loop on the first input of a different
rank, when every earlier input is fully compatible. -/
theorem fusedConcatLoop_rank (nd inDims : Nat) : ∀ (pre : List VariableMeta)
    (mBad : VariableMeta) (post : List VariableMeta) (shape : List Int),
    shape.length = inDims → nd < inDims →
    (∀ m ∈ pre, m.shape.length = inDims) →
    (∀ m ∈ pre, ∀ j, j < inDims → j ≠ nd → m.shape.getD j 0 = shape.getD j 0) →
    mBad.shape.length ≠ inDims →
    fusedConcatLoop nd inDims shape (pre ++ mBad :: post) = .error .rankMismatch := by
  intro pre
  induction pre with
  | nil =>
    intro mBad post shape hlen hnd _ _ hbad
    rw [List.nil_append, fusedConcatLoop, if_pos (Ne.symm hbad)]
  | cons m pre ih =>
    intro mBad post shape hlen hnd hranks hdims hbad
    rw [List.cons_append, fusedConcatLoop, if_neg (fun hk => hk (hranks m (by simp)).symm),
      concatZip_ok nd shape m.shape (hlen.trans (hranks m (by simp)).symm) (by omega)
        (fun j hj hjn => hdims m (by simp) j (by omega) hjn)]
    show fusedConcatLoop nd inDims
      (shape.set nd (shape.getD nd 0 + m.shape.getD nd 0)) (pre ++ mBad :: post) = _
    exact ih mBad post _ (by rw [List.length_set]; exact hlen) hnd
      (fun y hy => hranks y (List.mem_cons_of_mem m hy))
      (fun y hy j hj hjn => by
        rw [getD_set_ne shape nd j _ hjn]
        exact hdims y (List.mem_cons_of_mem m hy) j hj hjn)
      hbad

/-- Failure form of the concat outer loop when every later input has the
right rank but some later input differs at a non-concat position. -/
theorem fusedConcatLoop_mismatch (nd inDims : Nat) : ∀ (ms : List VariableMeta)
    (shape : List Int), shape.length = inDims → nd < inDims →
    (∀ m ∈ ms, m.shape.length = inDims) →
    (∃ m ∈ ms, ∃ j, j < inDims ∧ j ≠ nd ∧ m.shape.getD j 0 ≠ shape.getD j 0) →
    ∃ a b, fusedConcatLoop nd inDims shape ms = .error (.shapeMismatch a b) ∧ a ≠ b := by
  intro ms
  induction ms with
  | nil =>
    intro shape _ _ _ hex
    simp at hex
  | cons m ms ih =>
    intro shape hlen hnd hranks hex
    by_cases hm : ∃ j, j < inDims ∧ j ≠ nd ∧ m.shape.getD j 0 ≠ shape.getD j 0
    · obtain ⟨j, hj, hjn, hne⟩ := hm
      obtain ⟨x, y, hz, hxy⟩ := concatZip_mismatch nd shape m.shape
        (hlen.trans (hranks m (by simp)).symm) (by omega) ⟨j, by omega, hjn, hne⟩
      refine ⟨x, y, ?_, hxy⟩
      rw [fusedConcatLoop, if_neg (fun hk => hk (hranks m (by simp)).symm), hz]
    · push_neg at hm
      have hmok : ∀ j, j < shape.length → j ≠ nd → m.shape.getD j 0 = shape.getD j 0 :=
        fun j hj hjn => hm j (by omega) hjn
      rw [fusedConcatLoop, if_neg (fun hk => hk (hranks m (by simp)).symm),
        concatZip_ok nd shape m.shape (hlen.trans (hranks m (by simp)).symm) (by omega) hmok]
      show ∃ a b, fusedConcatLoop nd inDims
        (shape.set nd (shape.getD nd 0 + m.shape.getD nd 0)) ms =
          .error (.shapeMismatch a b) ∧ a ≠ b
      apply ih
      · rw [List.length_set]
        exact hlen
      · exact hnd
      · exact fun y hy => hranks y (List.mem_cons_of_mem m hy)
      · obtain ⟨m2, hm2, j, hj, hjn, hne⟩ := hex
        rcases List.mem_cons.mp hm2 with rfl | hmem
        · exact absurd (hm j hj hjn) hne
        · refine ⟨m2, hmem, j, hj, hjn, ?_⟩
          rw [getD_set_ne shape nd j _ hjn]
          exact hne

/-- Claim C5: concatenation with exactly one input returns that input's
shape with no dimension check; with several inputs a negative dimension is
normalised against the first input's rank and an out-of-range normalised
dimension fails with `dimOutOfRange`; when, scanning the later inputs in
order, every input up to a rank offender matches the first input, the rank
offender raises `rankMismatch`; when all later inputs have the first input's
rank and some later input differs at a non-concat dimension, the result is a
`shapeMismatch` of two differing sizes; otherwise the result is the first
input's shape with the concat dimension summed over all inputs; the two spec
examples compute as stated. -/
theorem claimC5_fusedConcat :
    (∀ (m : VariableMeta) (dim : Int), fusedConcat [m] dim = .ok m.shape) ∧
    (∀ (m0 m1 : VariableMeta) (ms : List VariableMeta) (dim nd : Int),
      nd = (if dim < 0 then dim + (m0.shape.length : Int) else dim) →
      ¬(nd < (m0.shape.length : Int) ∧ 0 ≤ nd) →
      fusedConcat (m0 :: m1 :: ms) dim = .error .dimOutOfRange) ∧
    (∀ (m0 m1 : VariableMeta) (ms : List VariableMeta) (dim nd : Int),
      nd = (if dim < 0 then dim + (m0.shape.length : Int) else dim) →
      nd < (m0.shape.length : Int) → 0 ≤ nd →
      (∀ m ∈ m1 :: ms, m.shape.length = m0.shape.length) →
      (∀ m ∈ m1 :: ms, ∀ j, j < m0.shape.length → j ≠ nd.toNat →
        m.shape.getD j 0 = m0.shape.getD j 0) →
      fusedConcat (m0 :: m1 :: ms) dim =
        .ok (m0.shape.set nd.toNat
          (((m0 :: m1 :: ms).map (fun m => m.shape.getD nd.toNat 0)).sum))) ∧
    (∀ (m0 mBad : VariableMeta) (pre post : List VariableMeta) (dim nd : Int),
      nd = (if dim < 0 then dim + (m0.shape.length : Int) else dim) →
      nd < (m0.shape.length : Int) → 0 ≤ nd →
      (∀ m ∈ pre, m.shape.length = m0.shape.length) →
      (∀ m ∈ pre, ∀ j, j < m0.shape.length → j ≠ nd.toNat →
        m.shape.getD j 0 = m0.shape.getD j 0) →
      mBad.shape.length ≠ m0.shape.length →
      fusedConcat (m0 :: (pre ++ mBad :: post)) dim = .error .rankMismatch) ∧
    (∀ (m0 m1 : VariableMeta) (ms : List VariableMeta) (dim nd : Int),
      nd = (if dim < 0 then dim + (m0.shape.length : Int) else dim) →
      nd < (m0.shape.length : Int) → 0 ≤ nd →
      (∀ m ∈ m1 :: ms, m.shape.length = m0.shape.length) →
      (∃ m ∈ m1 :: ms, ∃ j, j < m0.shape.length ∧ j ≠ nd.toNat ∧
        m.shape.getD j 0 ≠ m0.shape.getD j 0) →
      ∃ a b, fusedConcat (m0 :: m1 :: ms) dim = .error (.shapeMismatch a b) ∧ a ≠ b) ∧
    fusedConcat [⟨[2, 3], []⟩, ⟨[2, 4], []⟩] 1 = .ok [2, 7] ∧
    fusedConcat [⟨[2, 3], []⟩, ⟨[3, 3], []⟩] 1 = .error (.shapeMismatch 2 3) := by
  refine ⟨fun m dim => rfl, ?_, ?_, ?_, ?_, rfl, rfl⟩
  · intro m0 m1 ms dim nd hnd h
    subst hnd
    simp only [fusedConcat]
    rw [if_neg h]
  · intro m0 m1 ms dim nd hnd h1 h2 hranks hdims
    subst hnd
    simp only [fusedConcat]
    rw [if_pos ⟨h1, h2⟩]
    rw [fusedConcatLoop_ok _ m0.shape.length (m1 :: ms) m0.shape rfl (by omega) hranks
      (fun m hm j hj hjn => hdims m hm j hj hjn)]
    simp only [List.map_cons, List.sum_cons]
  · intro m0 mBad pre post dim nd hnd h1 h2 hranks hdims hbad
    subst hnd
    rcases pre with _ | ⟨p, pre2⟩
    · simp only [List.nil_append, fusedConcat]
      rw [if_pos ⟨h1, h2⟩]
      exact fusedConcatLoop_rank _ _ [] mBad post m0.shape rfl (by omega)
        (by simp) (by simp) hbad
    · simp only [List.cons_append, fusedConcat]
      rw [if_pos ⟨h1, h2⟩]
      exact fusedConcatLoop_rank _ _ (p :: pre2) mBad post m0.shape rfl (by omega)
        hranks hdims hbad
  · intro m0 m1 ms dim nd hnd h1 h2 hranks hex
    subst hnd
    simp only [fusedConcat]
    rw [if_pos ⟨h1, h2⟩]
    exact fusedConcatLoop_mismatch _ _ (m1 :: ms) m0.shape rfl (by omega) hranks hex

/-- Witness for claim C5 applying the success part with a negative dim. -/
theorem claimC5_fusedConcat_witness :
    fusedConcat [(⟨[2, 3], []⟩ : VariableMeta), ⟨[2, 4], []⟩] (-1) = .ok [2, 7] :=
  claimC5_fusedConcat.2.2.1 ⟨[2, 3], []⟩ ⟨[2, 4], []⟩ [] (-1) 1 (by decide)
    (by decide) (by decide) (by decide) (by decide)

/-- Prefixes processed without error continue into the remaining nodes from
the store they produced. -/
theorem runNodes_append : ∀ (pre post : List Node) (st st2 : Store),
    runNodes st pre = (st2, Option.none) →
    runNodes st (pre ++ post) = runNodes st2 post := by
  intro pre
  induction pre with
  | nil =>
    intro post st st2 h
    simp only [runNodes] at h
    injection h with h1 h2
    subst h1
    rw [List.nil_append]
  | cons n pre ih =>
    intro post st st2 h
    rw [List.cons_append, runNodes]
    rw [runNodes] at h
    rcases hs : shapeOnNode st n with e | st3
    · rw [hs] at h
      have h2 : (st, some e) = (st2, Option.none) := h
      simp at h2
    · rw [hs] at h
      have h2 : runNodes st3 pre = (st2, Option.none) := h
      show runNodes st3 (pre ++ post) = runNodes st2 post
      exact ih post st3 st2 h2

/-- The node loop that succeeds to the end of a graph after materialisation
determines the whole pass; used to expose `run` past its arity check. -/
theorem run_materialized (g : Graph) (inputs : List IValue) (st : Store)
    (hlen : inputs.length = g.inputs.length)
    (hmat : getGraphIntputShape [] (g.inputs.zip inputs) = (st, Option.none)) :
    run g inputs =
      (match runNodes st g.nodes with
       | (st2, some e) => ⟨st2, some e, []⟩
       | (st2, Option.none) =>
         match generateGraphOutputShape st2 g.outputs with
         | .error e => ⟨st2, some e, []⟩
         | .ok outs => ⟨st2, Option.none, outs⟩) := by
  simp only [run]
  rw [if_neg (not_not_intro hlen), hmat]

/-- Claim C9: `run` fails with `arityMismatch` — before materialising any
input, so with an empty store — when the caller-supplied input count differs
from the graph's declared input count; a materialiser error is returned with
no node processed; and the first failing node aborts the pass: the error is
returned, the store is exactly the store after the nodes before the failing
one, and no output shapes are produced. -/
theorem claimC9_run :
    (∀ (g : Graph) (inputs : List IValue), inputs.length ≠ g.inputs.length →
      run g inputs = ⟨[], some .arityMismatch, []⟩) ∧
    (∀ (g : Graph) (inputs : List IValue) (st : Store) (e : ShapeError),
      inputs.length = g.inputs.length →
      getGraphIntputShape [] (g.inputs.zip inputs) = (st, some e) →
      run g inputs = ⟨st, some e, []⟩) ∧
    (∀ (g : Graph) (inputs : List IValue) (st stPre : Store) (e : ShapeError)
      (n : Node) (pre post : List Node),
      inputs.length = g.inputs.length →
      getGraphIntputShape [] (g.inputs.zip inputs) = (st, Option.none) →
      g.nodes = pre ++ n :: post →
      runNodes st pre = (stPre, Option.none) →
      shapeOnNode stPre n = .error e →
      run g inputs = ⟨stPre, some e, []⟩) := by
  refine ⟨?_, ?_, ?_⟩
  · intro g inputs h
    simp only [run]
    rw [if_pos h]
  · intro g inputs st e hlen hmat
    simp only [run]
    rw [if_neg (not_not_intro hlen), hmat]
  · intro g inputs st stPre e n pre post hlen hmat hnodes hpre hnode
    rw [run_materialized g inputs st hlen hmat, hnodes,
      runNodes_append pre (n :: post) st stPre hpre, runNodes, hnode]

/-- Witness for claim C9: the arity check on an empty input list, and a
three-node graph whose middle node fails, leaving exactly the store produced
by the first node and no outputs. -/
theorem claimC9_run_witness :
    run ⟨[0], [], []⟩ [] = ⟨[], some .arityMismatch, []⟩ ∧
    run ⟨[0], [⟨.relu, [0], [1], 0, 0, .unhandled⟩,
               ⟨.mm, [1, 1], [2], 0, 0, .unhandled⟩,
               ⟨.relu, [2], [3], 0, 0, .unhandled⟩], []⟩ [.tensor [2, 3]] =
      ⟨[(1, ⟨[2, 3], []⟩), (0, ⟨[2, 3], []⟩), (0, ⟨[], []⟩)],
        some (.shapeMismatch 3 2), []⟩ :=
  ⟨claimC9_run.1 ⟨[0], [], []⟩ [] (by decide),
   claimC9_run.2.2
     ⟨[0], [⟨.relu, [0], [1], 0, 0, .unhandled⟩,
            ⟨.mm, [1, 1], [2], 0, 0, .unhandled⟩,
            ⟨.relu, [2], [3], 0, 0, .unhandled⟩], []⟩
     [.tensor [2, 3]]
     [(0, ⟨[2, 3], []⟩), (0, ⟨[], []⟩)]
     [(1, ⟨[2, 3], []⟩), (0, ⟨[2, 3], []⟩), (0, ⟨[], []⟩)]
     (.shapeMismatch 3 2)
     ⟨.mm, [1, 1], [2], 0, 0, .unhandled⟩
     [⟨.relu, [0], [1], 0, 0, .unhandled⟩]
     [⟨.relu, [2], [3], 0, 0, .unhandled⟩]
     rfl rfl rfl rfl rfl⟩

end Glow
